import Mathlib

/-!
Verification of the OCP specification-parser repository.

The repository contains several near-duplicate parser variants; the core
pipeline (segmentation, hierarchy resolution, requirement extraction,
metadata, record assembly) is shallowly embedded here:

* namespace `OCPv3`  — `src/OCP_parser_v3.py`  (nested requirement records);
* namespace `Flat`   — `src/ocp_parser.py`     (flattened SHALL records);
* namespace `P1`     — `src/OCP_parser.py`     (sentence-level shall extraction).

A page's extracted text is represented by its `splitlines()` image, i.e. a
page is a `(page_number, lines)` pair; lines therefore contain no newline
characters.  Character classes (`\d`, `\s`, `\w`) are modelled over ASCII.
-/

namespace OCP

/-- Python whitespace (`str.strip`, `str.split()`, regex `\s`), ASCII part. -/
def pySpace (c : Char) : Bool :=
  c = ' ' || c = '\t' || c = '\n' || c = '\x0b' || c = '\x0c' || c = '\r'

/-- Regex word character `\w` (ASCII part): letters, digits, underscore. -/
def isWordChar (c : Char) : Bool :=
  c.isAlpha || c.isDigit || c = '_'

/-- Sentence terminator used by `OCP_parser.py`'s SHALL_PATTERN: `[.!?]`. -/
def isSentTerm (c : Char) : Bool :=
  c = '.' || c = '!' || c = '?'

/-- Python `s.strip()` on a character list: drop whitespace at both ends. -/
def stripChars (l : List Char) : List Char :=
  ((l.dropWhile pySpace).reverse.dropWhile pySpace).reverse

/-- Truthiness of `line.strip()`: a line is blank iff its strip is empty. -/
def isBlank (s : String) : Bool :=
  (stripChars s.data).isEmpty

/-- Python `sep.join(parts)` on character lists. -/
def joinWith (sep : List Char) : List (List Char) → List Char
  | [] => []
  | [p] => p
  | p :: q :: rest => p ++ sep ++ joinWith sep (q :: rest)

/-- Python `s.split(sep)` for a one-character separator (keeps empty parts). -/
def splitChar (sep : Char) : List Char → List (List Char)
  | [] => [[]]
  | c :: rest =>
    let r := splitChar sep rest
    if c = sep then [] :: r
    else
      match r with
      | h :: t => (c :: h) :: t
      | [] => [[c]]

/-- Tokens of Python `s.split()` (no argument): maximal nonwhitespace runs. -/
def pyTokensAux (acc : List Char) : List Char → List (List Char)
  | [] => if acc.isEmpty then [] else [acc.reverse]
  | c :: cs =>
    if pySpace c then
      if acc.isEmpty then pyTokensAux [] cs else acc.reverse :: pyTokensAux [] cs
    else pyTokensAux (c :: acc) cs

/-- Python `s.split()` with no argument: whitespace-delimited tokens. -/
def pyTokens (l : List Char) : List (List Char) :=
  pyTokensAux [] l

/-- Python `s.replace(a, b)` for one-character arguments. -/
def replaceChar (a b : Char) (l : List Char) : List Char :=
  l.map fun c => if c = a then b else c

/-!
### The section-header regex `^(\d+(?:\.\d+)*)(\s+)(.+)$`

`SECTION_PATTERN.match(line)` (all variants embedded here use this pattern).
The group-1 "number" is the maximal leading run over `[0-9.]` — which must
have the shape `digits(.digits)*` — followed by mandatory whitespace and a
nonempty remainder (on lines without newline characters, `.` matches any
character, so if the remainder after the maximal whitespace run is empty the
regex backtracks and takes the last whitespace character as the title).
Backtracking inside the number cannot produce further matches because any
shorter valid number is followed by a digit or a dot, never by whitespace.
-/

/-- Does a character list have the shape `\d+(\.\d+)*`? -/
def validNum (l : List Char) : Bool :=
  !l.isEmpty && (splitChar '.' l).all fun g => !g.isEmpty && g.all Char.isDigit

/-- Python `SECTION_PATTERN.match(line)`, returning `(group 1, group 3)` =
    (section number, title). -/
def headerMatch (l : List Char) : Option (List Char × List Char) :=
  let num := l.takeWhile fun c => c.isDigit || c = '.'
  if validNum num then
    let rest := l.drop num.length
    let ws := rest.takeWhile pySpace
    let tail := rest.drop ws.length
    if ws.isEmpty then none
    else if !tail.isEmpty then some (num, tail)
    else if 2 ≤ ws.length then some (num, ws.drop (ws.length - 1))
    else none
  else none

/-- Whether a line is matched by the section-header pattern. -/
def isHeaderLine (s : String) : Bool :=
  (headerMatch s.data).isSome

/-!
### The shall regex `\bshall\b` (IGNORECASE), `SHALL_PATTERN.search(line)`
-/

/-- Does the list begin with case-insensitive `shall` followed by a
    word-boundary (end of input or a non-word character)? -/
def shallAt : List Char → Bool
  | c1 :: c2 :: c3 :: c4 :: c5 :: rest =>
    c1.toLower = 's' && c2.toLower = 'h' && c3.toLower = 'a' &&
    c4.toLower = 'l' && c5.toLower = 'l' &&
    (match rest with
     | [] => true
     | r :: _ => !isWordChar r)
  | _ => false

/-- Scan for `\bshall\b`; `prevW` records whether the previous character was
    a word character (so that the left boundary can be checked). -/
def shallSearchAux (prevW : Bool) : List Char → Bool
  | [] => false
  | c :: cs =>
    if !prevW && shallAt (c :: cs) then true
    else shallSearchAux (isWordChar c) cs

/-- Python `SHALL_PATTERN.search(line)` as a Boolean: the line contains a
    case-insensitive whole-word `shall`. -/
def shallSearch (l : List Char) : Bool :=
  shallSearchAux false l

/-!
### The anchor regex `\(see\b[^)]*\)` (IGNORECASE)

`ANCHOR_PATTERN.search` returns the leftmost match; `findall` counts the
non-overlapping matches.  A match at a position is `(` followed by
case-insensitive `see`, a word boundary, the characters up to the first `)`,
and that `)`.
-/

/-- Try to match `\(see\b[^)]*\)` at the head of the list; on success return
    the matched characters and the remainder after the match. -/
def matchSeeAt : List Char → Option (List Char × List Char)
  | '(' :: c1 :: c2 :: c3 :: rest =>
    if c1.toLower = 's' && c2.toLower = 'e' && c3.toLower = 'e' then
      match rest with
      | [] => none
      | r :: _ =>
        if isWordChar r then none
        else
          let inner := rest.takeWhile (· ≠ ')')
          match rest.dropWhile (· ≠ ')') with
          | ')' :: rem => some ('(' :: c1 :: c2 :: c3 :: (inner ++ [')']), rem)
          | _ => none
    else none
  | _ => none

/-- Python `ANCHOR_PATTERN.search(s)`: the leftmost match of `\(see\b[^)]*\)`. -/
def searchAnchor : List Char → Option String
  | [] => none
  | c :: cs =>
    match matchSeeAt (c :: cs) with
    | some (m, _) => some m.asString
    | none => searchAnchor cs

/-- Python `len(ANCHOR_PATTERN.findall(s))`: the number of non-overlapping matches,
    scanned left to right (fuel-driven; `l.length` steps always suffice
    because each step consumes at least one character). -/
def countAnchorsAux : Nat → List Char → Nat
  | 0, _ => 0
  | _ + 1, [] => 0
  | fuel + 1, c :: cs =>
    match matchSeeAt (c :: cs) with
    | some (_, rem) => 1 + countAnchorsAux fuel rem
    | none => countAnchorsAux fuel cs

/-- Python `len(ANCHOR_PATTERN.findall(s))`. -/
def countAnchors (l : List Char) : Nat :=
  countAnchorsAux l.length l

/-!
### The title map `section_title_map : Dict[str, str]`

Modelled as an association list; `mapSet` is Python dict assignment
(overwrite in place if the key is present, append otherwise), `mapGet?` is
lookup, and `key in map` is `(mapGet? m key).isSome`.
-/

abbrev TitleMap := List (String × String)

/-- Python `m[k] = v` on a dict. -/
def mapSet (m : TitleMap) (k v : String) : TitleMap :=
  match m with
  | [] => [(k, v)]
  | (k', v') :: rest => if k' = k then (k, v) :: rest else (k', v') :: mapSet rest k v

/-- Python `m.get(k)` / `m[k]` on a dict. -/
def mapGet? (m : TitleMap) (k : String) : Option String :=
  match m with
  | [] => none
  | (k', v') :: rest => if k' = k then some v' else mapGet? rest k

/-- Python `"." .join / split` helpers lifted to `String`. -/
def splitDots (s : String) : List String :=
  (splitChar '.' s.data).map List.asString

def joinDots (parts : List String) : String :=
  (joinWith ['.'] (parts.map String.data)).asString

/-- A page of extracted text: `{"page_number": ..., "text": ...}` with the
    text represented by its `splitlines()` image. -/
structure Page where
  page_number : Nat
  lines : List String
deriving DecidableEq

end OCP

/-! ## `src/OCP_parser_v3.py` — nested requirement records -/

namespace OCPv3

open OCP

structure HierarchyTree where
  current : String
  parent : Option String
  grandparent : Option String
  ancestors : List String
deriving DecidableEq

structure SectionMetadata where
  content_length : Nat
  requirement_count : Nat
  reference_count : Nat
  has_subsections : Bool
  depth : Nat
  word_count : Nat
deriving DecidableEq

structure Requirement where
  requirement_id : String
  shall_text : String
  context_before : List String
  context_after : List String
  anchor : Option String
  page_number : Nat
  hierarchy : String
  parent_hierarchy : Option String
deriving DecidableEq

structure Section where
  id : String
  hierarchy : String
  hierarchy_tree : HierarchyTree
  title : String
  requirements : List Requirement
  page_number : Nat
  metadata : SectionMetadata
  raw_content : String
deriving DecidableEq

/-- The keys looked up by `build_hierarchy_tree`:
    `".".join(parts[:i]) for i in range(1, len(parts))`. -/
def ancestorKeys (section_number : String) : List String :=
  let parts := splitDots section_number
  (List.range (parts.length - 1)).map fun i => joinDots (parts.take (i + 1))

/-- Embeds `build_hierarchy_tree` (`OCP_parser_v3.py`, lines 111-125): collect the
    mapped full names of the strict prefixes present in the title map, in
    increasing-prefix order; `parent` is `ancestors[-1] if ancestors else
    None`, `grandparent` is `ancestors[-2] if len(ancestors) >= 2 else None`. -/
def build_hierarchy_tree (m : TitleMap) (section_number : String) : HierarchyTree :=
  let ancestors :=
    (ancestorKeys section_number).foldl
      (fun acc key =>
        match mapGet? m key with
        | some v => acc ++ [v]
        | none => acc) []
  { current := (mapGet? m section_number).getD section_number
    parent := if ancestors.isEmpty then none else ancestors[ancestors.length - 1]?
    grandparent := if 2 ≤ ancestors.length then ancestors[ancestors.length - 2]? else none
    ancestors := ancestors }

/-- The context-BEFORE loop of `extract_requirements_with_context`:
    `i = idx - 1; while i >= 0: if lines[i].strip(): before = [lines[i]];
    break; i -= 1`.  The argument is the index of the shall line; position
    `i` is inspected in the `i + 1` case. -/
def ctxBefore (lines : List String) : Nat → List String
  | 0 => []
  | i + 1 =>
    match lines[i]? with
    | some l => if isBlank l then ctxBefore lines i else [l]
    | none => ctxBefore lines i

/-- The first non-blank line of a list (used for the context-AFTER loop). -/
def firstNonBlank : List String → List String
  | [] => []
  | l :: ls => if isBlank l then firstNonBlank ls else [l]

/-- The context-AFTER loop: `i = idx + 1; while i < len(lines): ...`. -/
def ctxAfter (lines : List String) (idx : Nat) : List String :=
  firstNonBlank (lines.drop (idx + 1))

/-- Anchor detection: search the shall line first and, when that fails and
    `after` is nonempty, search `after[0]`. -/
def anchorResolve (line : String) (after : List String) : Option String :=
  match searchAnchor line.data with
  | some a => some a
  | none =>
    match after with
    | a :: _ => searchAnchor a.data
    | [] => none

/-- The loop body of `extract_requirements_with_context`: `rest` is the part
    of `all` being scanned, `idx` its absolute start index, `cnt` the number
    of requirements already collected. -/
def extractGo (all : List String) (sid hier : String) (ph : Option String)
    (pg : Nat) : List String → Nat → Nat → List Requirement
  | [], _, _ => []
  | l :: rest, idx, cnt =>
    if shallSearch l.data then
      { requirement_id := sid ++ "_req_" ++ toString (cnt + 1)
        shall_text := l
        context_before := ctxBefore all idx
        context_after := ctxAfter all idx
        anchor := anchorResolve l (ctxAfter all idx)
        page_number := pg
        hierarchy := hier
        parent_hierarchy := ph } :: extractGo all sid hier ph pg rest (idx + 1) (cnt + 1)
    else extractGo all sid hier ph pg rest (idx + 1) cnt

/-- Embeds `extract_requirements_with_context` (`OCP_parser_v3.py`, lines 131-187). -/
def extract_requirements_with_context (lines : List String) (sid hier : String)
    (ph : Option String) (pg : Nat) : List Requirement :=
  extractGo lines sid hier ph pg lines 0 0

/-- The in-flight section dict built at header recognition. -/
structure CurSec where
  number : String
  title : String
  full_name : String
  page_number : Nat
  lines : List String
deriving DecidableEq

/-- Joined section content: `"\n".join(lines)` as a character list. -/
def contentChars (lines : List String) : List Char :=
  joinWith ['\n'] (lines.map String.data)

/-- Python `section_id = f'section_{number.replace(".", "_")}'`. -/
def sectionIdOf (number : String) : String :=
  "section_" ++ (replaceChar '.' '_' number.data).asString

/-- Embeds `_finalize_section` (`OCP_parser_v3.py`, lines 233-266). -/
def finalizeSection (m : TitleMap) (d : CurSec) : Section :=
  let content := contentChars d.lines
  let ht := build_hierarchy_tree m d.number
  let sid := sectionIdOf d.number
  let reqs := extract_requirements_with_context d.lines sid d.full_name ht.parent d.page_number
  { id := sid
    hierarchy := d.full_name
    hierarchy_tree := ht
    title := d.title
    requirements := reqs
    page_number := d.page_number
    metadata :=
      { content_length := content.length
        requirement_count := reqs.length
        reference_count := countAnchors content
        has_subsections := d.number.data.any (· = '.')
        depth := (splitDots d.number).length
        word_count := (pyTokens content).length }
    raw_content := content.asString }

/-- The mutable parser state of `parse`. -/
structure ParseSt where
  titleMap : TitleMap
  current : Option CurSec
  sections : List Section
deriving DecidableEq

/-- One iteration of the line loop of `parse` (lines 202-222): on a header,
    finalize the open section (with the map as it stands, before the new
    entry is registered), register the new id→full-name mapping and open a
    new section; otherwise append the line to the open section, or discard
    it when no section is open. -/
def step (st : ParseSt) (pg : Nat) (line : String) : ParseSt :=
  match headerMatch line.data with
  | some (num, title) =>
    let st1 :=
      match st.current with
      | some cur => { st with sections := st.sections ++ [finalizeSection st.titleMap cur] }
      | none => st
    let number := num.asString
    let t := title.asString
    let full := number ++ " " ++ t
    { titleMap := mapSet st1.titleMap number full
      current := some { number := number, title := t, full_name := full,
                        page_number := pg, lines := [] }
      sections := st1.sections }
  | none =>
    match st.current with
    | some cur => { st with current := some { cur with lines := cur.lines ++ [line] } }
    | none => st

/-- The page/line loops of `parse`, without the final flush. -/
def runLines (st : ParseSt) (ls : List (Nat × String)) : ParseSt :=
  ls.foldl (fun s pl => step s pl.1 pl.2) st

/-- Flatten the page stream into `(page_number, line)` pairs, in order. -/
def flatten (pages : List Page) : List (Nat × String) :=
  pages.flatMap fun p => p.lines.map fun l => (p.page_number, l)

def initSt : ParseSt := { titleMap := [], current := none, sections := [] }

/-- Run the loops of `parse` over the whole page stream. -/
def runPages (pages : List Page) : ParseSt :=
  pages.foldl (fun st p => p.lines.foldl (fun s l => step s p.page_number l) st) initSt

/-- The final `if current: sections.append(self._finalize_section(current))`. -/
def flush (st : ParseSt) : List Section :=
  match st.current with
  | some cur => st.sections ++ [finalizeSection st.titleMap cur]
  | none => st.sections

/-- Embeds `parse` (`OCP_parser_v3.py`, lines 193-227), from the page stream. -/
def parsePages (pages : List Page) : List Section :=
  flush (runPages pages)

/-!
Specification-side description of the Segmenter (for the refinement claim):
the stream splits into one segment per header line, each carrying the
non-header lines up to the next header; lines before the first header are
dropped.  This definition follows the spec's words, to be compared with the
fold-based `parsePages` translated from the source.
-/

structure SegRec where
  number : String
  title : String
  page : Nat
  body : List String
deriving DecidableEq

/-- Is a `(page, line)` pair a non-header line? -/
def nonHeader (x : Nat × String) : Bool :=
  !(isHeaderLine x.2)

def segSpec : List (Nat × String) → List SegRec
  | [] => []
  | x :: rest =>
    match headerMatch x.2.data with
    | some (num, title) =>
      { number := num.asString, title := title.asString, page := x.1,
        body := (rest.takeWhile nonHeader).map (·.2) }
        :: segSpec (rest.dropWhile nonHeader)
    | none => segSpec rest
termination_by ls => ls.length
decreasing_by
  · have h := (List.dropWhile_sublist (l := rest) nonHeader).length_le
    simp only [List.length_cons]
    omega
  · simp only [List.length_cons]
    omega

/-- The observable fields of a finalized section that the Segmenter alone
    determines (full name, title, page, raw content). -/
def secProj (s : Section) : String × Nat × String × String :=
  (s.hierarchy, s.page_number, s.title, s.raw_content)

/-- The same fields read off a spec-side segment. -/
def segProj (r : SegRec) : String × Nat × String × String :=
  (r.number ++ " " ++ r.title, r.page, r.title, (contentChars r.body).asString)

/-- The `(number, full name)` pairs of the header lines of a stream, in
    stream order. -/
def headerPairs (ls : List (Nat × String)) : List (String × String) :=
  ls.filterMap fun x =>
    (headerMatch x.2.data).map fun g => (g.1.asString, g.1.asString ++ " " ++ g.2.asString)

/-- Spec-side description of the final title-map contents: the full name
    recorded for id `k` comes from the LAST header line with that id. -/
def specLastName (ls : List (Nat × String)) (k : String) : Option String :=
  ((headerPairs ls).reverse.find? fun p => p.1 = k).map (·.2)

/-- The segment projections still owed by a mid-stream parser state: the
    open section (extended by the upcoming non-header lines) followed by the
    segments of the remaining stream. -/
def pendProj (cur : Option CurSec) (ls : List (Nat × String)) :
    List (String × Nat × String × String) :=
  match cur with
  | none => (segSpec ls).map segProj
  | some c =>
    (c.full_name, c.page_number, c.title,
      (contentChars (c.lines ++ (ls.takeWhile nonHeader).map (·.2))).asString)
      :: (segSpec (ls.dropWhile nonHeader)).map segProj

end OCPv3

/-! ## `src/ocp_parser.py` — flattened SHALL records -/

namespace Flat

open OCP

structure HierarchyTree where
  parent : Option String
  grandparent : Option String
  ancestors : List String
deriving DecidableEq

structure SectionMetadata where
  content_length : Nat
  requirement_count : Nat
  reference_count : Nat
  has_subsections : Bool
  depth : Nat
  word_count_in_section : Nat
deriving DecidableEq

/-- One flattened output record (`key_phrases`, an auxiliary field no claim
    touches, is not carried in the embedding). -/
structure FlatRecord where
  hierarchy : String
  hierarchy_tree : HierarchyTree
  page_number : Nat
  shall_sentence : Option String
  before_shall : Option String
  after_shall : Option String
  anchor : Option String
  metadata : SectionMetadata
deriving DecidableEq

/-- Embeds `build_hierarchy_tree` (`ocp_parser.py`, lines 86-97); identical to the
    v3 variant except that there is no `current` field. -/
def build_hierarchy_tree (m : TitleMap) (section_number : String) : HierarchyTree :=
  let ancestors :=
    (OCPv3.ancestorKeys section_number).foldl
      (fun acc key =>
        match mapGet? m key with
        | some v => acc ++ [v]
        | none => acc) []
  { parent := if ancestors.isEmpty then none else ancestors[ancestors.length - 1]?
    grandparent := if 1 < ancestors.length then ancestors[ancestors.length - 2]? else none
    ancestors := ancestors }

/-- The in-flight section dict of the flat parser. -/
structure CurSec where
  number : String
  hierarchy : String
  page_number : Nat
  lines : List String
deriving DecidableEq

/-- Python `next((lines[i] for i in range(idx - 1, -1, -1) if lines[i].strip()), None)`. -/
def beforeOpt (lines : List String) (idx : Nat) : Option String :=
  ((lines.take idx).reverse).find? fun l => !(isBlank l)

/-- Python `next((lines[i] for i in range(idx + 1, len(lines)) if lines[i].strip()), None)`. -/
def afterOpt (lines : List String) (idx : Nat) : Option String :=
  (lines.drop (idx + 1)).find? fun l => !(isBlank l)

/-- Anchor resolution of the flat variant: `if not anchor_match and after:`
    (`after` is a string here, so truthiness also requires it nonempty). -/
def anchorResolve (line : String) (after : Option String) : Option String :=
  match searchAnchor line.data with
  | some a => some a
  | none =>
    match after with
    | some a => if a.data.isEmpty then none else searchAnchor a.data
    | none => none

/-- The shall-record loop of `_finalize_section` (lines 167-188).  The
    `metadata` stored here still has the placeholder `requirement_count`;
    the closing `metadata.requirement_count = len(records)` mutates the one
    dict shared by every record, modelled by the update in `finalizeFlat`. -/
def flatGo (all : List String) (hier : String) (ht : HierarchyTree) (pg : Nat)
    (md : SectionMetadata) : List String → Nat → List FlatRecord
  | [], _ => []
  | l :: rest, idx =>
    if shallSearch l.data then
      { hierarchy := hier
        hierarchy_tree := ht
        page_number := pg
        shall_sentence := some (stripChars l.data).asString
        before_shall := beforeOpt all idx
        after_shall := afterOpt all idx
        anchor := anchorResolve l (afterOpt all idx)
        metadata := md } :: flatGo all hier ht pg md rest (idx + 1)
    else flatGo all hier ht pg md rest (idx + 1)

/-- Embeds `_finalize_section` (`ocp_parser.py`, lines 151-205): build the shall
    records, fall back to a single empty record when there are none, then
    set `requirement_count = len(records)` on the shared metadata dict. -/
def finalizeFlat (m : TitleMap) (d : CurSec) : List FlatRecord :=
  let content := OCPv3.contentChars d.lines
  let ht := build_hierarchy_tree m d.number
  let md : SectionMetadata :=
    { content_length := content.length
      requirement_count := 0
      reference_count := countAnchors content
      has_subsections := d.number.data.any (· = '.')
      depth := (splitDots d.number).length
      word_count_in_section := (pyTokens content).length }
  let records := flatGo d.lines d.hierarchy ht d.page_number md d.lines 0
  let records :=
    if records.isEmpty then
      [{ hierarchy := d.hierarchy, hierarchy_tree := ht, page_number := d.page_number,
         shall_sentence := none, before_shall := none, after_shall := none,
         anchor := none, metadata := md }]
    else records
  records.map fun r =>
    { r with metadata := { r.metadata with requirement_count := records.length } }

end Flat

/-! ## `src/OCP_parser.py` — sentence-level shall extraction -/

namespace P1

open OCP

structure HierarchyTree where
  current : String
  parent : Option String
  grandparent : Option String
  ancestors : List String
deriving DecidableEq

/-- Embeds `build_hierarchy_tree` (`OCP_parser.py`, lines 116-126): this variant
    takes no title map; the ancestors are the joined strict numeric
    prefixes of the id itself. -/
def build_hierarchy_tree (hierarchy : String) : HierarchyTree :=
  let parts := splitDots hierarchy
  { current := hierarchy
    parent := if 1 < parts.length then some (joinDots parts.dropLast) else none
    grandparent := if 2 < parts.length then some (joinDots parts.dropLast.dropLast) else none
    ancestors := (List.range (parts.length - 1)).map fun i => joinDots (parts.take (i + 1)) }

/-- Split a text into the sentence pieces scanned by
    `SHALL_PATTERN = [^.!?]*\bshall\b[^.!?]*[.!?]` with `findall`: each
    piece runs up to and includes the next `[.!?]`; an unterminated tail
    yields no piece.  Fuel-driven; each step consumes at least the piece's
    terminator, so `l.length` steps always suffice. -/
def sentencePiecesAux : Nat → List Char → List (List Char)
  | 0, _ => []
  | fuel + 1, l =>
    match l.dropWhile (fun c => !(isSentTerm c)) with
    | [] => []
    | t :: rest =>
      (l.takeWhile (fun c => !(isSentTerm c)) ++ [t]) :: sentencePiecesAux fuel rest

def sentencePieces (l : List Char) : List (List Char) :=
  sentencePiecesAux l.length l

/-- Python `SHALL_PATTERN.findall(text)`: the sentence pieces that contain a
    case-insensitive whole-word `shall`. -/
def shallFindall (text : List Char) : List (List Char) :=
  (sentencePieces text).filter shallSearch

/-- Python `dict.fromkeys` de-duplication: keep the first occurrence of each
    element, preserving order (`seen` accumulates the keys already kept). -/
def pyDedupAux (seen : List String) : List String → List String
  | [] => []
  | s :: rest =>
    if s ∈ seen then pyDedupAux seen rest
    else s :: pyDedupAux (s :: seen) rest

def pyDedup (l : List String) : List String :=
  pyDedupAux [] l

/-- Embeds `extract_shall_sentences` (`OCP_parser.py`, lines 138-143): strip each
    match, keep those strictly longer than 15 characters, de-duplicate. -/
def extract_shall_sentences (text : String) : List String :=
  pyDedup (((shallFindall text.data).map fun p => (stripChars p).asString).filter
    fun s => 15 < s.length)

/-- Python `requirement_count = len(shall_sentences)` in `_finalize_section`
    (`OCP_parser.py`, lines 220-228). -/
def requirementCount (content : String) : Nat :=
  (extract_shall_sentences content).length

/-- Spec-side formulation of first-occurrence de-duplication: fold left,
    appending each element not yet present. -/
def firstOccFold (l : List String) : List String :=
  l.foldl (fun acc x => if x ∈ acc then acc else acc ++ [x]) []

end P1

/-!
## Error-explicit re-embedding of the `OCP_parser_v3.py` pipeline

Every operation of the pipeline that can raise in Python — subscripting a
list (`lines[i]`, `after[0]`, `ancestors[-1]`, `ancestors[-2]`) and
subscripting the title-map dict (`self.section_title_map[key]`) — is
modelled here in the `Except` monad, erroring exactly where Python would
raise `IndexError`/`KeyError`.  The safety claim is that this pipeline
always returns `Except.ok` of the pure result.
-/

namespace OCPv3E

open OCP OCPv3

/-- Checked list subscript `l[i]` (for `i ≥ 0`). -/
def getE {α : Type} (l : List α) (i : Nat) : Except String α :=
  match l[i]? with
  | some x => .ok x
  | none => .error "IndexError"

/-- Checked dict subscript `m[k]`. -/
def mapGetE (m : TitleMap) (k : String) : Except String String :=
  match mapGet? m k with
  | some v => .ok v
  | none => .error "KeyError"

/-- The context-BEFORE loop with the `lines[i]` subscript checked. -/
def ctxBeforeE (lines : List String) : Nat → Except String (List String)
  | 0 => .ok []
  | i + 1 => do
    let l ← getE lines i
    if isBlank l then ctxBeforeE lines i else pure [l]

/-- Anchor detection with the `after[0]` subscript checked (it is guarded by
    the truthiness test `if not anchor_match and after`). -/
def anchorResolveE (line : String) (after : List String) : Except String (Option String) := do
  let m0 := searchAnchor line.data
  if m0.isNone && !after.isEmpty then do
    let a ← getE after 0
    pure (searchAnchor a.data)
  else
    pure m0

/-- The requirement-extraction loop with checked subscripts. -/
def extractGoE (all : List String) (sid hier : String) (ph : Option String)
    (pg : Nat) : List String → Nat → Nat → Except String (List Requirement)
  | [], _, _ => .ok []
  | l :: rest, idx, cnt =>
    if shallSearch l.data then do
      let before ← ctxBeforeE all idx
      let after := ctxAfter all idx
      let anchor ← anchorResolveE l after
      let tailReqs ← extractGoE all sid hier ph pg rest (idx + 1) (cnt + 1)
      pure ({ requirement_id := sid ++ "_req_" ++ toString (cnt + 1)
              shall_text := l
              context_before := before
              context_after := after
              anchor := anchor
              page_number := pg
              hierarchy := hier
              parent_hierarchy := ph } :: tailReqs)
    else extractGoE all sid hier ph pg rest (idx + 1) cnt

/-- Python `ancestors[-1] if ancestors else None` with the subscript checked. -/
def lastE (l : List String) : Except String (Option String) :=
  if l.isEmpty then pure none
  else do
    let v ← getE l (l.length - 1)
    pure (some v)

/-- Python `ancestors[-2] if len(ancestors) >= 2 else None` with the subscript
    checked. -/
def penultE (l : List String) : Except String (Option String) :=
  if 2 ≤ l.length then do
    let v ← getE l (l.length - 2)
    pure (some v)
  else pure none

/-- Embeds `build_hierarchy_tree` with the guarded dict subscript and the guarded
    negative list subscripts checked. -/
def build_hierarchy_treeE (m : TitleMap) (section_number : String) :
    Except String HierarchyTree := do
  let ancestors ←
    (ancestorKeys section_number).foldlM
      (fun acc key =>
        if (mapGet? m key).isSome then do
          let v ← mapGetE m key
          pure (acc ++ [v])
        else pure acc) ([] : List String)
  let parent ← lastE ancestors
  let gp ← penultE ancestors
  pure { current := (mapGet? m section_number).getD section_number
         parent := parent
         grandparent := gp
         ancestors := ancestors }

/-- Embeds `_finalize_section` in the checked pipeline. -/
def finalizeSectionE (m : TitleMap) (d : CurSec) : Except String Section := do
  let content := contentChars d.lines
  let ht ← build_hierarchy_treeE m d.number
  let sid := sectionIdOf d.number
  let reqs ← extractGoE d.lines sid d.full_name ht.parent d.page_number d.lines 0 0
  pure { id := sid
         hierarchy := d.full_name
         hierarchy_tree := ht
         title := d.title
         requirements := reqs
         page_number := d.page_number
         metadata :=
           { content_length := content.length
             requirement_count := reqs.length
             reference_count := countAnchors content
             has_subsections := d.number.data.any (· = '.')
             depth := (splitDots d.number).length
             word_count := (pyTokens content).length }
         raw_content := content.asString }

/-- One line-loop iteration of `parse` in the checked pipeline. -/
def stepE (st : ParseSt) (pg : Nat) (line : String) : Except String ParseSt :=
  match headerMatch line.data with
  | some (num, title) => do
    let st1 ←
      match st.current with
      | some cur => do
        let s ← finalizeSectionE st.titleMap cur
        pure { st with sections := st.sections ++ [s] }
      | none => pure st
    let number := num.asString
    let t := title.asString
    let full := number ++ " " ++ t
    pure { titleMap := mapSet st1.titleMap number full
           current := some { number := number, title := t, full_name := full,
                             page_number := pg, lines := [] }
           sections := st1.sections }
  | none =>
    match st.current with
    | some cur => pure { st with current := some { cur with lines := cur.lines ++ [line] } }
    | none => pure st

/-- Embeds `parse` in the checked pipeline. -/
def parseE (pages : List Page) : Except String (List Section) := do
  let st ← pages.foldlM (fun st p => p.lines.foldlM (fun s l => stepE s p.page_number l) st) initSt
  match st.current with
  | some cur => do
    let s ← finalizeSectionE st.titleMap cur
    pure (st.sections ++ [s])
  | none => pure st.sections

end OCPv3E

/-! # Theorems -/

open OCP

/-! ## Generic helper lemmas -/

theorem mapGet?_mapSet (m : TitleMap) (k v k' : String) :
    mapGet? (mapSet m k v) k' = if k' = k then some v else mapGet? m k' := by
  induction m with
  | nil =>
    simp only [mapSet, mapGet?]
    by_cases h : k' = k
    · rw [if_pos (h ▸ rfl), if_pos h]
    · rw [if_neg (fun hh => h hh.symm), if_neg h]
  | cons p rest ih =>
    obtain ⟨a, b⟩ := p
    simp only [mapSet]
    by_cases hak : a = k
    · subst hak
      simp only [if_pos rfl, mapGet?]
      by_cases h : a = k'
      · subst h
        simp
      · rw [if_neg h, if_neg (fun hh => h hh.symm), if_neg h]
    · rw [if_neg hak]
      simp only [mapGet?]
      by_cases h : a = k'
      · subst h
        rw [if_pos rfl, if_neg hak, if_pos rfl]
      · rw [if_neg h, ih]
        by_cases hk : k' = k
        · rw [if_pos hk, if_pos hk]
        · rw [if_neg hk, if_neg hk, if_neg h]

theorem foldl_mapGet_filterMap (m : TitleMap) (keys : List String) (acc : List String) :
    keys.foldl
      (fun acc key =>
        match mapGet? m key with
        | some v => acc ++ [v]
        | none => acc) acc = acc ++ keys.filterMap (mapGet? m) := by
  induction keys generalizing acc with
  | nil => simp
  | cons k ks ih =>
    simp only [List.foldl_cons, List.filterMap_cons]
    cases h : mapGet? m k with
    | none => simpa using ih acc
    | some v => simpa [List.append_assoc] using ih (acc ++ [v])

theorem ifLast_eq_getLast? {α : Type} (l : List α) :
    (if l.isEmpty then none else l[l.length - 1]?) = l.getLast? := by
  cases l with
  | nil => simp
  | cons a t => simp [List.getLast?_eq_getElem?]

theorem ifPenult_eq_dropLast_getLast? {α : Type} (l : List α) :
    (if 2 ≤ l.length then l[l.length - 2]? else none) = l.dropLast.getLast? := by
  rw [List.getLast?_eq_getElem?, List.getElem?_dropLast, List.length_dropLast]
  have h2 : l.length - 1 - 1 = l.length - 2 := by omega
  rw [h2]
  by_cases h : 2 ≤ l.length
  · rw [if_pos h, if_pos (by omega)]
  · rw [if_neg h, if_neg (by omega)]

theorem joinWith_append (sep : List Char) (a b : List (List Char))
    (ha : a ≠ []) (hb : b ≠ []) :
    joinWith sep (a ++ b) = joinWith sep a ++ sep ++ joinWith sep b := by
  induction a with
  | nil => exact absurd rfl ha
  | cons p a' ih =>
    cases a' with
    | nil =>
      cases b with
      | nil => exact absurd rfl hb
      | cons q b' => rfl
    | cons p' a'' =>
      have h := ih (by simp)
      have e1 : joinWith sep ((p :: p' :: a'') ++ b)
          = p ++ sep ++ joinWith sep ((p' :: a'') ++ b) := rfl
      have e2 : joinWith sep (p :: p' :: a'')
          = p ++ sep ++ joinWith sep (p' :: a'') := rfl
      rw [e1, e2, h]
      simp [List.append_assoc]

theorem data_asString (l : List Char) : (List.asString l).data = l := rfl

theorem joinDots_take_lt (parts : List String) (a b : Nat)
    (ha : 1 ≤ a) (hab : a < b) (hb : b ≤ parts.length) :
    (joinDots (parts.take a)).data <+: (joinDots (parts.take b)).data := by
  have hb' : b = a + (b - a) := by omega
  have htake : parts.take b = parts.take a ++ (parts.drop a).take (b - a) := by
    conv_lhs => rw [hb']
    rw [List.take_add]
  have hA : parts.take a ≠ [] := by
    have hl : (parts.take a).length = a := by
      rw [List.length_take, Nat.min_def, if_pos (by omega)]
    intro hnil
    rw [hnil] at hl
    simp at hl
    omega
  have hB : (parts.drop a).take (b - a) ≠ [] := by
    have hl : ((parts.drop a).take (b - a)).length = b - a := by
      rw [List.length_take, List.length_drop, Nat.min_def, if_pos (by omega)]
    intro hnil
    rw [hnil] at hl
    simp at hl
    omega
  unfold joinDots
  rw [data_asString, data_asString, htake, List.map_append]
  rw [joinWith_append _ _ _ (by simpa using hA) (by simpa using hB)]
  exact ⟨['.'] ++ joinWith ['.'] (((parts.drop a).take (b - a)).map String.data), by
    simp [List.append_assoc]⟩

/-! ## Claim C1: hierarchy resolution -/

/-- C1 (amended): for the title-map-based variants (`OCP_parser_v3.py` and
    `ocp_parser.py`), `build_hierarchy_tree` returns as `ancestors` exactly
    the mapped full names of the strict dot-separated prefixes of the id
    present in the title map, in increasing-prefix order (the prefix-key
    list is pairwise ordered by list-prefix), with `parent` the last element
    of `ancestors` and `grandparent` the second-to-last, each absent when
    missing.  (`OCP_parser.py`'s variant instead synthesizes ancestors from
    the raw number — see the counterexample.) -/
theorem claim_C1 : ∀ (m : TitleMap) (id : String),
    (OCPv3.build_hierarchy_tree m id).ancestors = (OCPv3.ancestorKeys id).filterMap (mapGet? m)
    ∧ (OCPv3.build_hierarchy_tree m id).parent = (OCPv3.build_hierarchy_tree m id).ancestors.getLast?
    ∧ (OCPv3.build_hierarchy_tree m id).grandparent
        = (OCPv3.build_hierarchy_tree m id).ancestors.dropLast.getLast?
    ∧ (Flat.build_hierarchy_tree m id).ancestors = (OCPv3.ancestorKeys id).filterMap (mapGet? m)
    ∧ (Flat.build_hierarchy_tree m id).parent = (Flat.build_hierarchy_tree m id).ancestors.getLast?
    ∧ (Flat.build_hierarchy_tree m id).grandparent
        = (Flat.build_hierarchy_tree m id).ancestors.dropLast.getLast?
    ∧ List.Pairwise (fun a b => a.data <+: b.data) (OCPv3.ancestorKeys id) := by
  intro m id
  have hanc :
      (OCPv3.ancestorKeys id).foldl
        (fun acc key =>
          match mapGet? m key with
          | some v => acc ++ [v]
          | none => acc) []
        = (OCPv3.ancestorKeys id).filterMap (mapGet? m) := by
    rw [foldl_mapGet_filterMap]
    simp
  have hpw : List.Pairwise (fun a b => a.data <+: b.data) (OCPv3.ancestorKeys id) := by
    unfold OCPv3.ancestorKeys
    rw [List.pairwise_map]
    refine (List.pairwise_lt_range _).imp_of_mem ?_
    intro i j hi hj hij
    rw [List.mem_range] at hi hj
    exact joinDots_take_lt _ (i + 1) (j + 1) (by omega) (by omega) (by omega)
  refine ⟨hanc, ?_, ?_, hanc, ?_, ?_, hpw⟩
  · show (if _ then none else _) = _
    exact ifLast_eq_getLast? _
  · show (if _ then _ else none) = _
    exact ifPenult_eq_dropLast_getLast? _
  · show (if _ then none else _) = _
    exact ifLast_eq_getLast? _
  · show (if _ then _ else none) = _
    exact ifPenult_eq_dropLast_getLast? _

/-- C1 counterexample: `OCP_parser.py`'s `build_hierarchy_tree` ignores the
    title map and returns the raw numeric prefixes: with the title map
    `{"3": "3 Intro", "3.2": "3.2 Power"}` and id `"3.2.1"` the claim
    requires ancestors `["3 Intro", "3.2 Power"]`, but the code returns
    `["3", "3.2"]`. -/
theorem claim_C1_cex :
    (P1.build_hierarchy_tree "3.2.1").ancestors = ["3", "3.2"]
    ∧ (OCPv3.ancestorKeys "3.2.1").filterMap (mapGet? [("3", "3 Intro"), ("3.2", "3.2 Power")])
        = ["3 Intro", "3.2 Power"]
    ∧ (P1.build_hierarchy_tree "3.2.1").ancestors ≠
        (OCPv3.ancestorKeys "3.2.1").filterMap (mapGet? [("3", "3 Intro"), ("3.2", "3.2 Power")]) := by
  refine ⟨by decide, by decide, by decide⟩

/-! ## Claim C2: title-map write discipline -/

theorem runLines_nil (st : OCPv3.ParseSt) : OCPv3.runLines st [] = st := rfl

theorem runLines_cons (st : OCPv3.ParseSt) (x : Nat × String) (ls : List (Nat × String)) :
    OCPv3.runLines st (x :: ls) = OCPv3.runLines (OCPv3.step st x.1 x.2) ls := rfl

theorem runLines_append (st : OCPv3.ParseSt) (a b : List (Nat × String)) :
    OCPv3.runLines st (a ++ b) = OCPv3.runLines (OCPv3.runLines st a) b := by
  unfold OCPv3.runLines
  rw [List.foldl_append]

theorem step_titleMap (tm : TitleMap) (cur : Option OCPv3.CurSec)
    (secs : List OCPv3.Section) (pg : Nat) (line : String) :
    (OCPv3.step ⟨tm, cur, secs⟩ pg line).titleMap =
      match headerMatch line.data with
      | some g => mapSet tm g.1.asString (g.1.asString ++ " " ++ g.2.asString)
      | none => tm := by
  unfold OCPv3.step
  cases h : headerMatch line.data with
  | some g =>
    obtain ⟨num, title⟩ := g
    cases cur <;> rfl
  | none => cases cur <;> rfl

theorem titleMap_runLines (ls : List (Nat × String)) :
    ∀ st : OCPv3.ParseSt, (OCPv3.runLines st ls).titleMap
      = (OCPv3.headerPairs ls).foldl (fun m p => mapSet m p.1 p.2) st.titleMap := by
  induction ls with
  | nil => intro st; rfl
  | cons x rest ih =>
    intro st
    obtain ⟨tm, cur, secs⟩ := st
    rw [runLines_cons, ih, step_titleMap]
    cases h : headerMatch x.2.data with
    | none => simp [OCPv3.headerPairs, List.filterMap_cons, h]
    | some g => simp [OCPv3.headerPairs, List.filterMap_cons, h]

theorem mapGet?_foldl_mapSet (ps : List (String × String)) :
    ∀ (m : TitleMap) (k : String),
      mapGet? (ps.foldl (fun m p => mapSet m p.1 p.2) m) k
        = match ps.reverse.find? (fun p => p.1 = k) with
          | some p => some p.2
          | none => mapGet? m k := by
  induction ps with
  | nil => intro m k; rfl
  | cons p rest ih =>
    intro m k
    rw [List.foldl_cons, ih, List.reverse_cons, List.find?_append]
    cases hf : rest.reverse.find? (fun q => decide (q.1 = k)) with
    | some q => simp [hf]
    | none =>
      simp only [hf, Option.none_or]
      by_cases hp : p.1 = k
      · simp [List.find?, hp, mapGet?_mapSet]
      · have hp' : ¬k = p.1 := fun hh => hp hh.symm
        simp [List.find?, hp, hp', mapGet?_mapSet]

theorem foldl_lines_eq (lines : List String) (pg : Nat) :
    ∀ st, lines.foldl (fun s l => OCPv3.step s pg l) st
      = OCPv3.runLines st (lines.map (fun l => (pg, l))) := by
  induction lines with
  | nil => intro st; rfl
  | cons l rest ih =>
    intro st
    rw [List.foldl_cons, List.map_cons, runLines_cons]
    exact ih _

theorem runPages_eq_runLines (pages : List Page) :
    OCPv3.runPages pages = OCPv3.runLines OCPv3.initSt (OCPv3.flatten pages) := by
  suffices h : ∀ st, pages.foldl
      (fun st p => p.lines.foldl (fun s l => OCPv3.step s p.page_number l) st) st
      = OCPv3.runLines st (OCPv3.flatten pages) from h _
  induction pages with
  | nil => intro st; rfl
  | cons p rest ih =>
    intro st
    rw [List.foldl_cons]
    unfold OCPv3.flatten
    rw [List.flatMap_cons, runLines_append, ih, foldl_lines_eq]
    rfl

/-- C2 (amended): the title-map entry for a section id is written at header
    recognition, but a duplicate id OVERWRITES the earlier entry: after
    processing, the recorded full name for id `k` is the one from the LAST
    header line with that id (last occurrence wins, not first), and the
    entry is absent exactly when no header with that id occurred. -/
theorem claim_C2 : ∀ (pages : List Page) (k : String),
    mapGet? (OCPv3.runPages pages).titleMap k = OCPv3.specLastName (OCPv3.flatten pages) k := by
  intro pages k
  rw [runPages_eq_runLines, titleMap_runLines, mapGet?_foldl_mapSet]
  unfold OCPv3.specLastName
  cases hf : (OCPv3.headerPairs (OCPv3.flatten pages)).reverse.find? (fun p => decide (p.1 = k)) with
  | some q => simp [hf]
  | none => simp [hf, OCPv3.initSt, mapGet?]

/-- C2 counterexample: the stream `"3 Alpha", "3 Beta"` (two headers with
    the same id `"3"`) leaves the title map at `"3" ↦ "3 Beta"` — the first
    occurrence `"3 Alpha"` is overwritten, contradicting the claim's
    first-occurrence-wins statement. -/
theorem claim_C2_cex :
    mapGet? (OCPv3.runPages [⟨1, ["3 Alpha", "3 Beta"]⟩]).titleMap "3" = some "3 Beta"
    ∧ ("3 Beta" : String) ≠ "3 Alpha" := by
  refine ⟨by decide, by decide⟩

/-! ## Claim C3: the Segmenter -/

theorem secProj_finalize (m : TitleMap) (d : OCPv3.CurSec) :
    OCPv3.secProj (OCPv3.finalizeSection m d)
      = (d.full_name, d.page_number, d.title, (OCPv3.contentChars d.lines).asString) := rfl

theorem segSpec_nil : OCPv3.segSpec [] = [] := by
  rw [OCPv3.segSpec]

theorem segSpec_cons (x : Nat × String) (rest : List (Nat × String)) :
    OCPv3.segSpec (x :: rest)
      = match headerMatch x.2.data with
        | some g =>
          { number := g.1.asString, title := g.2.asString, page := x.1,
            body := (rest.takeWhile OCPv3.nonHeader).map (·.2) : OCPv3.SegRec }
            :: OCPv3.segSpec (rest.dropWhile OCPv3.nonHeader)
        | none => OCPv3.segSpec rest := by
  rw [OCPv3.segSpec]
  cases g : headerMatch x.2.data with
  | some p =>
    obtain ⟨a, b⟩ := p
    rfl
  | none => rfl

theorem flushProj (ls : List (Nat × String)) :
    ∀ st : OCPv3.ParseSt,
      (OCPv3.flush (OCPv3.runLines st ls)).map OCPv3.secProj
        = st.sections.map OCPv3.secProj ++ OCPv3.pendProj st.current ls := by
  induction ls with
  | nil =>
    intro st
    obtain ⟨tm, cur, secs⟩ := st
    cases cur with
    | none => simp [OCPv3.runLines, OCPv3.flush, OCPv3.pendProj, segSpec_nil]
    | some c =>
      simp [OCPv3.runLines, OCPv3.flush, OCPv3.pendProj, segSpec_nil, secProj_finalize]
  | cons x rest ih =>
    intro st
    obtain ⟨tm, cur, secs⟩ := st
    rw [runLines_cons]
    cases h : headerMatch x.2.data with
    | some g =>
      obtain ⟨num, title⟩ := g
      have hnh : OCPv3.nonHeader x = false := by
        simp [OCPv3.nonHeader, isHeaderLine, h]
      cases cur with
      | none =>
        have hstep : OCPv3.step ⟨tm, none, secs⟩ x.1 x.2
            = ⟨mapSet tm num.asString (num.asString ++ " " ++ title.asString),
               some ⟨num.asString, title.asString,
                     num.asString ++ " " ++ title.asString, x.1, []⟩, secs⟩ := by
          unfold OCPv3.step
          rw [h]
        rw [hstep, ih]
        show _ = _ ++ OCPv3.pendProj none (x :: rest)
        simp only [OCPv3.pendProj, segSpec_cons, h, List.map_cons]
        simp [OCPv3.segProj]
      | some c =>
        have hstep : OCPv3.step ⟨tm, some c, secs⟩ x.1 x.2
            = ⟨mapSet tm num.asString (num.asString ++ " " ++ title.asString),
               some ⟨num.asString, title.asString,
                     num.asString ++ " " ++ title.asString, x.1, []⟩,
               secs ++ [OCPv3.finalizeSection tm c]⟩ := by
          unfold OCPv3.step
          rw [h]
        rw [hstep, ih]
        show _ = _ ++ OCPv3.pendProj (some c) (x :: rest)
        simp only [OCPv3.pendProj, segSpec_cons, h, List.map_cons, List.map_append,
          List.takeWhile_cons, hnh, List.dropWhile_cons, Bool.false_eq_true, if_false,
          List.map_nil, List.append_nil, secProj_finalize]
        simp [OCPv3.segProj, List.append_assoc]
    | none =>
      have hnh : OCPv3.nonHeader x = true := by
        simp [OCPv3.nonHeader, isHeaderLine, h]
      cases cur with
      | none =>
        have hstep : OCPv3.step ⟨tm, none, secs⟩ x.1 x.2 = ⟨tm, none, secs⟩ := by
          unfold OCPv3.step
          rw [h]
        rw [hstep, ih]
        show _ = _ ++ OCPv3.pendProj none (x :: rest)
        simp only [OCPv3.pendProj, segSpec_cons, h]
      | some c =>
        have hstep : OCPv3.step ⟨tm, some c, secs⟩ x.1 x.2
            = ⟨tm, some { c with lines := c.lines ++ [x.2] }, secs⟩ := by
          unfold OCPv3.step
          rw [h]
        rw [hstep, ih]
        show _ = _ ++ OCPv3.pendProj (some c) (x :: rest)
        simp only [OCPv3.pendProj, List.takeWhile_cons, hnh, if_true,
          List.dropWhile_cons, List.map_cons]
        simp [List.append_assoc]

theorem segSpec_length (n : Nat) :
    ∀ ls : List (Nat × String), ls.length ≤ n →
      (OCPv3.segSpec ls).length = ls.countP (fun x => isHeaderLine x.2) := by
  induction n with
  | zero =>
    intro ls hls
    have : ls = [] := List.length_eq_zero.mp (Nat.le_zero.mp hls)
    subst this
    simp [segSpec_nil]
  | succ n ih =>
    intro ls hls
    cases ls with
    | nil => simp [segSpec_nil]
    | cons x rest =>
      rw [segSpec_cons, List.countP_cons]
      cases h : headerMatch x.2.data with
      | some g =>
        have hrest : rest = rest.takeWhile OCPv3.nonHeader ++ rest.dropWhile OCPv3.nonHeader :=
          (List.takeWhile_append_dropWhile (p := OCPv3.nonHeader) (l := rest)).symm
        have htw : (rest.takeWhile OCPv3.nonHeader).countP (fun x => isHeaderLine x.2) = 0 := by
          rw [List.countP_eq_zero]
          intro a ha
          have hm := List.mem_takeWhile_imp ha
          simp [OCPv3.nonHeader] at hm
          simp [hm]
        have hcnt : rest.countP (fun x => isHeaderLine x.2)
            = (rest.dropWhile OCPv3.nonHeader).countP (fun x => isHeaderLine x.2) := by
          conv_lhs => rw [hrest]
          rw [List.countP_append, htw]
          omega
        have hlen : (rest.dropWhile OCPv3.nonHeader).length ≤ n := by
          have := (List.dropWhile_sublist (l := rest) OCPv3.nonHeader).length_le
          simp only [List.length_cons] at hls
          omega
        have hx : isHeaderLine x.2 = true := by simp [isHeaderLine, h]
        simp only [List.length_cons, ih _ hlen, ← hcnt, hx]
        simp
      | none =>
        have hlen : rest.length ≤ n := by
          simp only [List.length_cons] at hls
          omega
        have hx : isHeaderLine x.2 = false := by simp [isHeaderLine, h]
        simp only [ih _ hlen, hx]
        simp

/-- C3: the Segmenter refines the spec-side segmentation: the finalized
    sections are, in order and in their segmenter-determined fields (full
    name, page, title, raw content), exactly one segment per header line,
    each segment's content being the non-header lines up to the next header
    (lines before the first header are discarded); consequently the number
    of finalized sections equals the number of header lines. -/
theorem claim_C3 : ∀ pages : List Page,
    (OCPv3.parsePages pages).map OCPv3.secProj
      = (OCPv3.segSpec (OCPv3.flatten pages)).map OCPv3.segProj
    ∧ (OCPv3.parsePages pages).length
      = (OCPv3.flatten pages).countP (fun x => isHeaderLine x.2) := by
  intro pages
  have h1 : (OCPv3.parsePages pages).map OCPv3.secProj
      = (OCPv3.segSpec (OCPv3.flatten pages)).map OCPv3.segProj := by
    unfold OCPv3.parsePages
    rw [runPages_eq_runLines, flushProj]
    simp [OCPv3.initSt, OCPv3.pendProj]
  refine ⟨h1, ?_⟩
  have h2 := congrArg List.length h1
  simp only [List.length_map] at h2
  rw [h2, segSpec_length (OCPv3.flatten pages).length _ (Nat.le_refl _)]

/-! ## Claims C4 and C5: requirement extraction -/

theorem searchAnchor_cons (c : Char) (cs : List Char) :
    searchAnchor (c :: cs)
      = match matchSeeAt (c :: cs) with
        | some g => some g.1.asString
        | none => searchAnchor cs := by
  rw [searchAnchor]
  cases matchSeeAt (c :: cs) with
  | some g =>
    obtain ⟨m, rem⟩ := g
    rfl
  | none => rfl

theorem searchAnchor_leftmost (l : List Char) :
    ∀ (i : Nat) (m rem : List Char),
      matchSeeAt (l.drop i) = some (m, rem) →
      (∀ j, j < i → matchSeeAt (l.drop j) = none) →
      searchAnchor l = some m.asString := by
  induction l with
  | nil =>
    intro i m rem hm _
    rw [List.drop_nil] at hm
    simp [matchSeeAt] at hm
  | cons c cs ih =>
    intro i m rem hm hj
    cases i with
    | zero =>
      rw [List.drop_zero] at hm
      rw [searchAnchor_cons, hm]
    | succ i' =>
      have h0 : matchSeeAt (c :: cs) = none := by
        have h := hj 0 (Nat.succ_pos _)
        simpa using h
      rw [searchAnchor_cons, h0]
      apply ih i' m rem
      · simpa using hm
      · intro j hj'
        have h := hj (j + 1) (by omega)
        simpa using h

theorem mem_extractGo_anchor (all : List String) (sid hier : String) (ph : Option String)
    (pg : Nat) :
    ∀ (rest : List String) (idx cnt : Nat) (r : OCPv3.Requirement),
      r ∈ OCPv3.extractGo all sid hier ph pg rest idx cnt →
      r.anchor = OCPv3.anchorResolve r.shall_text r.context_after := by
  intro rest
  induction rest with
  | nil =>
    intro idx cnt r hr
    simp [OCPv3.extractGo] at hr
  | cons l rest ih =>
    intro idx cnt r hr
    rw [OCPv3.extractGo] at hr
    cases hs : shallSearch l.data with
    | true =>
      rw [hs, if_pos rfl] at hr
      rcases List.mem_cons.mp hr with heq | hmem
      · subst heq
        rfl
      · exact ih _ _ _ hmem
    | false =>
      rw [hs] at hr
      simp only [Bool.false_eq_true, if_false] at hr
      exact ih _ _ _ hr

/-- C4: anchors are resolved from the shall line first, then (only on
    failure) from the single context-after line, taking the leftmost match;
    with two `(see ...)` occurrences on one shall line only the first is
    attached, and no other requirement receives the second. -/
theorem claim_C4 :
    (∀ (all : List String) (sid hier : String) (ph : Option String) (pg : Nat)
        (r : OCPv3.Requirement),
      r ∈ OCPv3.extract_requirements_with_context all sid hier ph pg →
      r.anchor = OCPv3.anchorResolve r.shall_text r.context_after)
    ∧ (∀ (l : List Char) (i : Nat) (m rem : List Char),
        matchSeeAt (l.drop i) = some (m, rem) →
        (∀ j, j < i → matchSeeAt (l.drop j) = none) →
        searchAnchor l = some m.asString)
    ∧ (OCPv3.extract_requirements_with_context
        ["It shall do X (see A) and (see B)"] "s" "h" none 1).map (fun r => r.anchor)
        = [some "(see A)"]
    ∧ (OCPv3.extract_requirements_with_context
        ["It shall do X (see A) and (see B)"] "s" "h" none 1).length = 1 := by
  refine ⟨?_, searchAnchor_leftmost, by decide, by decide⟩
  intro all sid hier ph pg r hr
  exact mem_extractGo_anchor all sid hier ph pg all 0 0 r hr

/-- C4 witness: the single requirement extracted from the two-anchor line
    carries exactly the first anchor, as an instance of the theorem. -/
theorem claim_C4_witness :
    ({ requirement_id := "s_req_1", shall_text := "It shall do X (see A) and (see B)",
       context_before := [], context_after := [], anchor := some "(see A)",
       page_number := 1, hierarchy := "h", parent_hierarchy := none } :
        OCPv3.Requirement).anchor
      = OCPv3.anchorResolve "It shall do X (see A) and (see B)" [] :=
  claim_C4.1 ["It shall do X (see A) and (see B)"] "s" "h" none 1 _ (by decide)

theorem ctxBefore_succ (lines : List String) (i : Nat) :
    OCPv3.ctxBefore lines (i + 1)
      = match lines[i]? with
        | some l => if isBlank l then OCPv3.ctxBefore lines i else [l]
        | none => OCPv3.ctxBefore lines i := by
  rw [OCPv3.ctxBefore]

theorem ctxBefore_spec (lines : List String) :
    ∀ i : Nat,
      (OCPv3.ctxBefore lines i = []
        ∧ ∀ j, j < i → ∀ l, lines[j]? = some l → isBlank l = true)
      ∨ (∃ j l, j < i ∧ lines[j]? = some l ∧ isBlank l = false
          ∧ OCPv3.ctxBefore lines i = [l]
          ∧ ∀ k, j < k → k < i → ∀ l', lines[k]? = some l' → isBlank l' = true) := by
  intro i
  induction i with
  | zero =>
    left
    exact ⟨rfl, fun j hj => absurd hj (Nat.not_lt_zero j)⟩
  | succ i ih =>
    cases hl : lines[i]? with
    | none =>
      have hstep : OCPv3.ctxBefore lines (i + 1) = OCPv3.ctxBefore lines i := by
        rw [ctxBefore_succ, hl]
      rcases ih with ⟨he, hall⟩ | ⟨j, l, hj, hjl, hnb, he, hmax⟩
      · left
        refine ⟨hstep.trans he, fun j hj l hjl => ?_⟩
        rcases Nat.lt_succ_iff_lt_or_eq.mp hj with h | h
        · exact hall j h l hjl
        · subst h
          rw [hl] at hjl
          exact absurd hjl (by simp)
      · right
        refine ⟨j, l, by omega, hjl, hnb, hstep.trans he, fun k hk1 hk2 l' hkl => ?_⟩
        rcases Nat.lt_succ_iff_lt_or_eq.mp hk2 with h | h
        · exact hmax k hk1 h l' hkl
        · subst h
          rw [hl] at hkl
          exact absurd hkl (by simp)
    | some l =>
      cases hb : isBlank l with
      | true =>
        have hstep : OCPv3.ctxBefore lines (i + 1) = OCPv3.ctxBefore lines i := by
          rw [ctxBefore_succ, hl]
          simp [hb]
        rcases ih with ⟨he, hall⟩ | ⟨j, l', hj, hjl, hnb, he, hmax⟩
        · left
          refine ⟨hstep.trans he, fun j hj l0 hjl => ?_⟩
          rcases Nat.lt_succ_iff_lt_or_eq.mp hj with h | h
          · exact hall j h l0 hjl
          · subst h
            rw [hl] at hjl
            cases hjl
            exact hb
        · right
          refine ⟨j, l', by omega, hjl, hnb, hstep.trans he,
            fun k hk1 hk2 l0 hkl => ?_⟩
          rcases Nat.lt_succ_iff_lt_or_eq.mp hk2 with h | h
          · exact hmax k hk1 h l0 hkl
          · subst h
            rw [hl] at hkl
            cases hkl
            exact hb
      | false =>
        right
        have hstep : OCPv3.ctxBefore lines (i + 1) = [l] := by
          rw [ctxBefore_succ, hl]
          simp [hb]
        exact ⟨i, l, Nat.lt_succ_self i, hl, hb, hstep,
          fun k hk1 hk2 l' _ => absurd (by omega : k < k) (lt_irrefl k)⟩

theorem firstNonBlank_cons (a : String) (t : List String) :
    OCPv3.firstNonBlank (a :: t) = if isBlank a then OCPv3.firstNonBlank t else [a] := by
  rw [OCPv3.firstNonBlank]

theorem firstNonBlank_spec :
    ∀ ls : List String,
      (OCPv3.firstNonBlank ls = [] ∧ ∀ l ∈ ls, isBlank l = true)
      ∨ (∃ (k : Nat) (l : String), ls[k]? = some l ∧ isBlank l = false
          ∧ OCPv3.firstNonBlank ls = [l]
          ∧ ∀ j, j < k → ∀ l', ls[j]? = some l' → isBlank l' = true) := by
  intro ls
  induction ls with
  | nil =>
    left
    exact ⟨rfl, by simp⟩
  | cons a t ih =>
    cases hb : isBlank a with
    | false =>
      right
      refine ⟨0, a, by simp, hb, ?_, fun j hj => absurd hj (Nat.not_lt_zero j)⟩
      rw [firstNonBlank_cons]
      simp [hb]
    | true =>
      have hstep : OCPv3.firstNonBlank (a :: t) = OCPv3.firstNonBlank t := by
        rw [firstNonBlank_cons]
        simp [hb]
      rcases ih with ⟨he, hall⟩ | ⟨k, l, hkl, hnb, he, hmin⟩
      · left
        refine ⟨hstep.trans he, fun l hl => ?_⟩
        rcases List.mem_cons.mp hl with h | h
        · subst h
          exact hb
        · exact hall l h
      · right
        refine ⟨k + 1, l, by simpa using hkl, hnb, hstep.trans he, fun j hj l' hjl => ?_⟩
        cases j with
        | zero =>
          rw [List.getElem?_cons_zero] at hjl
          injection hjl with hh
          subst hh
          exact hb
        | succ j' =>
          have := hmin j' (by omega) l' (by simpa using hjl)
          exact this

theorem ctxAfter_spec (lines : List String) (i : Nat) :
    (OCPv3.ctxAfter lines i = []
      ∧ ∀ j, i < j → ∀ l, lines[j]? = some l → isBlank l = true)
    ∨ (∃ j l, i < j ∧ lines[j]? = some l ∧ isBlank l = false
        ∧ OCPv3.ctxAfter lines i = [l]
        ∧ ∀ k, i < k → k < j → ∀ l', lines[k]? = some l' → isBlank l' = true) := by
  have hidx : ∀ k : Nat, (lines.drop (i + 1))[k]? = lines[i + 1 + k]? := by
    intro k
    rw [List.getElem?_drop]
  rcases firstNonBlank_spec (lines.drop (i + 1)) with ⟨he, hall⟩ | ⟨k, l, hkl, hnb, he, hmin⟩
  · left
    refine ⟨he, fun j hj l hjl => ?_⟩
    have hj' : j = i + 1 + (j - i - 1) := by omega
    rw [hj', ← hidx] at hjl
    exact hall l (List.getElem?_mem hjl)
  · right
    refine ⟨i + 1 + k, l, by omega, by rw [← hidx]; exact hkl, hnb, he,
      fun k' hk1 hk2 l' hkl' => ?_⟩
    have hk' : k' = i + 1 + (k' - i - 1) := by omega
    rw [hk', ← hidx] at hkl'
    exact hmin (k' - i - 1) (by omega) l' hkl'

theorem mem_extractGo_fields (all : List String) (sid hier : String) (ph : Option String)
    (pg : Nat) :
    ∀ (rest : List String) (idx cnt : Nat), rest = all.drop idx →
      ∀ r ∈ OCPv3.extractGo all sid hier ph pg rest idx cnt,
        ∃ i : Nat, all[i]? = some r.shall_text ∧ shallSearch r.shall_text.data = true
          ∧ r.context_before = OCPv3.ctxBefore all i
          ∧ r.context_after = OCPv3.ctxAfter all i := by
  intro rest
  induction rest with
  | nil =>
    intro idx cnt _ r hr
    simp [OCPv3.extractGo] at hr
  | cons l rest ih =>
    intro idx cnt hre r hr
    have hl : all[idx]? = some l := by
      have h0 : (all.drop idx)[0]? = some l := by
        rw [← hre]
        simp
      rw [List.getElem?_drop] at h0
      simpa using h0
    have hre' : rest = all.drop (idx + 1) := by
      have hd : all.drop (idx + 1) = (all.drop idx).drop 1 := by
        rw [List.drop_drop]
      rw [hd, ← hre]
      rfl
    rw [OCPv3.extractGo] at hr
    cases hs : shallSearch l.data with
    | true =>
      rw [hs, if_pos rfl] at hr
      rcases List.mem_cons.mp hr with heq | hmem
      · subst heq
        exact ⟨idx, hl, hs, rfl, rfl⟩
      · exact ih _ _ hre' r hmem
    | false =>
      rw [hs] at hr
      simp only [Bool.false_eq_true, if_false] at hr
      exact ih _ _ hre' r hr

/-- C5: every extracted requirement's `context_before`/`context_after` come
    from `ctxBefore`/`ctxAfter` at the shall line's own index in the same
    section's content lines; `ctxBefore` is empty or the single nearest
    non-blank line strictly below, `ctxAfter` likewise strictly above (each
    at most one line); and on `["A.", "The system shall log events.", "B."]`
    the one requirement has `context_before = ["A."]`,
    `context_after = ["B."]`. -/
theorem claim_C5 :
    (∀ (all : List String) (sid hier : String) (ph : Option String) (pg : Nat)
        (r : OCPv3.Requirement),
      r ∈ OCPv3.extract_requirements_with_context all sid hier ph pg →
      ∃ i : Nat, all[i]? = some r.shall_text ∧ shallSearch r.shall_text.data = true
        ∧ r.context_before = OCPv3.ctxBefore all i
        ∧ r.context_after = OCPv3.ctxAfter all i)
    ∧ (∀ (lines : List String) (i : Nat),
        (OCPv3.ctxBefore lines i = []
          ∧ ∀ j, j < i → ∀ l, lines[j]? = some l → isBlank l = true)
        ∨ (∃ j l, j < i ∧ lines[j]? = some l ∧ isBlank l = false
            ∧ OCPv3.ctxBefore lines i = [l]
            ∧ ∀ k, j < k → k < i → ∀ l', lines[k]? = some l' → isBlank l' = true))
    ∧ (∀ (lines : List String) (i : Nat),
        (OCPv3.ctxAfter lines i = []
          ∧ ∀ j, i < j → ∀ l, lines[j]? = some l → isBlank l = true)
        ∨ (∃ j l, i < j ∧ lines[j]? = some l ∧ isBlank l = false
            ∧ OCPv3.ctxAfter lines i = [l]
            ∧ ∀ k, i < k → k < j → ∀ l', lines[k]? = some l' → isBlank l' = true))
    ∧ (OCPv3.extract_requirements_with_context
        ["A.", "The system shall log events.", "B."] "s" "h" none 1).map
        (fun r => (r.shall_text, r.context_before, r.context_after))
        = [("The system shall log events.", ["A."], ["B."])] := by
  refine ⟨?_, ctxBefore_spec, ctxAfter_spec, by decide⟩
  intro all sid hier ph pg r hr
  exact mem_extractGo_fields all sid hier ph pg all 0 0 (by simp) r hr

/-- C5 witness: the theorem instantiated at the concrete three-line section,
    locating the shall line and its contexts. -/
theorem claim_C5_witness :
    ∃ i : Nat, (["A.", "The system shall log events.", "B."] : List String)[i]?
        = some "The system shall log events."
      ∧ shallSearch ("The system shall log events." : String).data = true
      ∧ (["A."] : List String)
          = OCPv3.ctxBefore ["A.", "The system shall log events.", "B."] i
      ∧ (["B."] : List String)
          = OCPv3.ctxAfter ["A.", "The system shall log events.", "B."] i :=
  claim_C5.1 ["A.", "The system shall log events.", "B."] "s" "h" none 1
    { requirement_id := "s_req_1", shall_text := "The system shall log events.",
      context_before := ["A."], context_after := ["B."], anchor := none,
      page_number := 1, hierarchy := "h", parent_hierarchy := none } (by decide)

/-! ## Claim C6: zero-shall sections -/

theorem extractGo_nil_of_no_shall (all : List String) (sid hier : String)
    (ph : Option String) (pg : Nat) :
    ∀ (rest : List String) (idx cnt : Nat),
      (∀ l ∈ rest, shallSearch l.data = false) →
      OCPv3.extractGo all sid hier ph pg rest idx cnt = [] := by
  intro rest
  induction rest with
  | nil =>
    intro idx cnt _
    rfl
  | cons l rest ih =>
    intro idx cnt hno
    rw [OCPv3.extractGo]
    have hs : shallSearch l.data = false := hno l (by simp)
    rw [hs]
    simp only [Bool.false_eq_true, if_false]
    exact ih _ _ fun l' hl' => hno l' (by simp [hl'])

theorem flatGo_nil_of_no_shall (all : List String) (hier : String)
    (ht : Flat.HierarchyTree) (pg : Nat) (md : Flat.SectionMetadata) :
    ∀ (rest : List String) (idx : Nat),
      (∀ l ∈ rest, shallSearch l.data = false) →
      Flat.flatGo all hier ht pg md rest idx = [] := by
  intro rest
  induction rest with
  | nil =>
    intro idx _
    rfl
  | cons l rest ih =>
    intro idx hno
    rw [Flat.flatGo]
    have hs : shallSearch l.data = false := hno l (by simp)
    rw [hs]
    simp only [Bool.false_eq_true, if_false]
    exact ih _ fun l' hl' => hno l' (by simp [hl'])

/-- C6: a finalized section with no whole-word `shall` in its content lines
    yields, in the flattened shape, exactly one record whose requirement
    fields (`shall_sentence`, contexts, `anchor`) are all absent with
    `requirement_count = 1`; in the nested shape it yields an empty
    `requirements` list. -/
theorem claim_C6 : ∀ (m : TitleMap) (number hier title full : String) (pg : Nat)
    (lines : List String),
    (∀ l ∈ lines, shallSearch l.data = false) →
    ((Flat.finalizeFlat m ⟨number, hier, pg, lines⟩).length = 1
      ∧ ∀ r ∈ Flat.finalizeFlat m ⟨number, hier, pg, lines⟩,
          r.shall_sentence = none ∧ r.before_shall = none ∧ r.after_shall = none
          ∧ r.anchor = none ∧ r.metadata.requirement_count = 1)
    ∧ (OCPv3.finalizeSection m ⟨number, title, full, pg, lines⟩).requirements = [] := by
  intro m number hier title full pg lines hno
  constructor
  · have hgo : ∀ (ht : Flat.HierarchyTree) (md : Flat.SectionMetadata),
        Flat.flatGo lines hier ht pg md lines 0 = [] :=
      fun ht md => flatGo_nil_of_no_shall lines hier ht pg md lines 0 hno
    simp only [Flat.finalizeFlat, hgo]
    simp only [List.isEmpty_nil, if_pos rfl, List.map_cons, List.map_nil, List.length_cons,
      List.length_nil]
    refine ⟨rfl, ?_⟩
    intro r hr
    rcases List.mem_cons.mp hr with heq | hmem
    · subst heq
      exact ⟨rfl, rfl, rfl, rfl, rfl⟩
    · simp at hmem
  · show OCPv3.extract_requirements_with_context lines (OCPv3.sectionIdOf number) full
        (OCPv3.build_hierarchy_tree m number).parent pg = []
    exact extractGo_nil_of_no_shall lines (OCPv3.sectionIdOf number) full
      (OCPv3.build_hierarchy_tree m number).parent pg lines 0 0 hno

/-- C6 witness: the nested variant of the theorem at a concrete
    two-line, shall-free section. -/
theorem claim_C6_witness :
    (OCPv3.finalizeSection [] ⟨"3", "T", "3 T", 1, ["hello", "world (see A)"]⟩).requirements
      = [] :=
  (claim_C6 [] "3" "3 T" "T" "3 T" 1 ["hello", "world (see A)"] (by decide)).2

/-! ## Claim C7: end-to-end example -/

/-- C7: the five-line page stream produces exactly two sections `3` and
    `3.1`; section `3.1`'s parent is `3 Power`; one requirement is
    extracted under `3.1`, its shall text containing
    `shall report power budget`, its anchor `(see Section 3.2)`, its
    `context_before` absent and its `context_after` `End text.`. -/
theorem claim_C7 :
    (OCPv3.parsePages [⟨1, ["3 Power", "Overview text.", "3.1 Power Budget",
        "The controller shall report power budget. (see Section 3.2)", "End text."]⟩]).map
        (fun s => s.id) = ["section_3", "section_3_1"]
    ∧ (OCPv3.parsePages [⟨1, ["3 Power", "Overview text.", "3.1 Power Budget",
        "The controller shall report power budget. (see Section 3.2)", "End text."]⟩]).map
        (fun s => s.hierarchy_tree.parent) = [none, some "3 Power"]
    ∧ (OCPv3.parsePages [⟨1, ["3 Power", "Overview text.", "3.1 Power Budget",
        "The controller shall report power budget. (see Section 3.2)", "End text."]⟩]).map
        (fun s => s.requirements.map fun r =>
          (r.shall_text, r.anchor, r.context_before, r.context_after))
        = [[], [("The controller shall report power budget. (see Section 3.2)",
            some "(see Section 3.2)", [], ["End text."])]]
    ∧ ∃ pre post : String,
        "The controller shall report power budget. (see Section 3.2)"
          = pre ++ "shall report power budget" ++ post := by
  refine ⟨by decide, by decide, by decide, "The controller ", ". (see Section 3.2)", by decide⟩

/-! ## Claim C8: section metadata -/

theorem joinWith_newline_length (parts : List (List Char)) :
    (joinWith ['\n'] parts).length = (parts.map List.length).sum + parts.length - 1 := by
  induction parts with
  | nil => rfl
  | cons p rest ih =>
    cases rest with
    | nil => simp [joinWith]
    | cons q rest' =>
      have e : joinWith ['\n'] (p :: q :: rest')
          = p ++ ['\n'] ++ joinWith ['\n'] (q :: rest') := rfl
      rw [e]
      simp only [List.length_append, ih, List.map_cons, List.sum_cons, List.length_cons,
        List.length_nil]
      omega

theorem pyTokensAux_spec :
    ∀ (l acc : List Char), (∀ c ∈ acc, pySpace c = false) →
      ∀ t ∈ pyTokensAux acc l, t ≠ [] ∧ ∀ c ∈ t, pySpace c = false := by
  intro l
  induction l with
  | nil =>
    intro acc hacc t ht
    unfold pyTokensAux at ht
    cases hae : acc.isEmpty with
    | true =>
      rw [hae] at ht
      simp at ht
    | false =>
      rw [hae] at ht
      simp only [Bool.false_eq_true, if_false, List.mem_singleton] at ht
      subst ht
      refine ⟨?_, fun c hc => hacc c (List.mem_reverse.mp hc)⟩
      intro hnil
      rw [List.reverse_eq_nil_iff] at hnil
      subst hnil
      simp [List.isEmpty_nil] at hae
  | cons c cs ih =>
    intro acc hacc t ht
    unfold pyTokensAux at ht
    cases hs : pySpace c with
    | true =>
      rw [hs] at ht
      simp only [if_pos rfl] at ht
      cases hae : acc.isEmpty with
      | true =>
        rw [hae] at ht
        simp only [if_pos rfl] at ht
        exact ih [] (by simp) t ht
      | false =>
        rw [hae] at ht
        simp only [Bool.false_eq_true, if_false] at ht
        rcases List.mem_cons.mp ht with heq | hmem
        · subst heq
          refine ⟨?_, fun c hc => hacc c (List.mem_reverse.mp hc)⟩
          intro hnil
          rw [List.reverse_eq_nil_iff] at hnil
          subst hnil
          simp [List.isEmpty_nil] at hae
        · exact ih [] (by simp) t hmem
    | false =>
      rw [hs] at ht
      simp only [Bool.false_eq_true, if_false] at ht
      refine ih (c :: acc) ?_ t ht
      intro c' hc'
      rcases List.mem_cons.mp hc' with heq | hmem
      · subst heq
        exact hs
      · exact hacc c' hmem

theorem splitChar_length (sep : Char) (l : List Char) :
    (splitChar sep l).length = l.countP (· = sep) + 1 := by
  induction l with
  | nil => rfl
  | cons c rest ih =>
    by_cases h : c = sep
    · simp [splitChar, h, List.countP_cons, ih]
    · cases hr : splitChar sep rest with
      | nil =>
        rw [hr] at ih
        simp at ih
      | cons hd tl =>
        have e : splitChar sep (c :: rest) = (c :: hd) :: tl := by
          simp [splitChar, h, hr]
        rw [e, List.countP_cons]
        have : tl.length + 1 = rest.countP (· = sep) + 1 := by
          rw [← ih, hr]
          simp
        simp only [List.length_cons, this]
        simp [h]

theorem any_dot_iff (l : List Char) : (l.any (· = '.')) = true ↔ '.' ∈ l := by
  simp [List.any_eq_true]

/-- C8: for every finalized section, `content_length` is the character
    count of the newline-joined content (line lengths plus separators),
    `word_count` the number of whitespace-delimited tokens (each token
    nonempty and whitespace-free), `depth` the number of dot-separated id
    components (= dots + 1), `has_subsections` holds iff the id contains a
    dot, and `reference_count` counts the anchor-pattern matches over the
    whole content — which can exceed the anchors attached to requirements,
    as the final concrete section (two matches, zero requirements) shows. -/
theorem claim_C8 : ∀ (m : TitleMap) (d : OCPv3.CurSec),
    (OCPv3.finalizeSection m d).metadata.content_length
        = (d.lines.map String.length).sum + d.lines.length - 1
    ∧ (OCPv3.finalizeSection m d).metadata.word_count
        = (pyTokens (OCPv3.contentChars d.lines)).length
    ∧ (∀ t ∈ pyTokens (OCPv3.contentChars d.lines), t ≠ [] ∧ ∀ c ∈ t, pySpace c = false)
    ∧ (OCPv3.finalizeSection m d).metadata.depth = d.number.data.countP (· = '.') + 1
    ∧ ((OCPv3.finalizeSection m d).metadata.has_subsections = true ↔ '.' ∈ d.number.data)
    ∧ (OCPv3.finalizeSection m d).metadata.reference_count
        = countAnchors (OCPv3.contentChars d.lines)
    ∧ (OCPv3.finalizeSection []
        ⟨"4", "T", "4 T", 1, ["alpha (see A)", "beta (see B)"]⟩).metadata.reference_count = 2
    ∧ (OCPv3.finalizeSection []
        ⟨"4", "T", "4 T", 1, ["alpha (see A)", "beta (see B)"]⟩).requirements = [] := by
  intro m d
  refine ⟨?_, rfl, pyTokensAux_spec _ [] (by simp), ?_, ?_, rfl, by decide, by decide⟩
  · show (OCPv3.contentChars d.lines).length = _
    unfold OCPv3.contentChars
    rw [joinWith_newline_length]
    simp [List.map_map]
    rfl
  · show (splitDots d.number).length = _
    unfold splitDots
    rw [List.length_map, splitChar_length]
  · show (d.number.data.any (· = '.')) = true ↔ '.' ∈ d.number.data
    exact any_dot_iff d.number.data

/-- C8 witness: the theorem instantiated at a one-line section; the token
    characterization is evaluated at the single token of its content. -/
theorem claim_C8_witness :
    (['h', 'i'] : List Char) ≠ [] ∧ ∀ c ∈ (['h', 'i'] : List Char), pySpace c = false :=
  (claim_C8 [] ⟨"4", "T", "4 T", 1, ["hi"]⟩).2.2.1 ['h', 'i'] (by decide)

/-! ## Claim C10: sentence-level extraction in `OCP_parser.py` -/

theorem pyDedupAux_sublist :
    ∀ (l seen : List String), List.Sublist (P1.pyDedupAux seen l) l := by
  intro l
  induction l with
  | nil =>
    intro seen
    exact List.Sublist.refl []
  | cons a t ih =>
    intro seen
    rw [P1.pyDedupAux]
    by_cases hm : a ∈ seen
    · rw [if_pos hm]
      exact (ih seen).cons a
    · rw [if_neg hm]
      exact (ih (a :: seen)).cons₂ a

theorem pyDedupAux_not_seen :
    ∀ (l seen : List String) (s : String), s ∈ P1.pyDedupAux seen l → s ∉ seen := by
  intro l
  induction l with
  | nil =>
    intro seen s hs
    simp [P1.pyDedupAux] at hs
  | cons a t ih =>
    intro seen s hs
    rw [P1.pyDedupAux] at hs
    by_cases hm : a ∈ seen
    · rw [if_pos hm] at hs
      exact ih _ _ hs
    · rw [if_neg hm] at hs
      rcases List.mem_cons.mp hs with heq | hmem
      · subst heq
        exact hm
      · intro hcon
        exact ih _ _ hmem (List.mem_cons_of_mem _ hcon)

theorem pyDedupAux_nodup : ∀ (l seen : List String), (P1.pyDedupAux seen l).Nodup := by
  intro l
  induction l with
  | nil =>
    intro seen
    simp [P1.pyDedupAux]
  | cons a t ih =>
    intro seen
    rw [P1.pyDedupAux]
    by_cases hm : a ∈ seen
    · rw [if_pos hm]
      exact ih seen
    · rw [if_neg hm]
      refine List.nodup_cons.mpr ⟨?_, ih (a :: seen)⟩
      intro hcon
      exact pyDedupAux_not_seen t (a :: seen) a hcon (List.mem_cons_self a seen)

theorem foldl_firstOcc_eq :
    ∀ (l acc seen : List String), (∀ x : String, x ∈ seen ↔ x ∈ acc) →
      l.foldl (fun acc x => if x ∈ acc then acc else acc ++ [x]) acc
        = acc ++ P1.pyDedupAux seen l := by
  intro l
  induction l with
  | nil =>
    intro acc seen _
    simp [P1.pyDedupAux]
  | cons a t ih =>
    intro acc seen hiff
    rw [List.foldl_cons, P1.pyDedupAux]
    by_cases hm : a ∈ acc
    · rw [if_pos hm, if_pos ((hiff a).mpr hm)]
      exact ih acc seen hiff
    · rw [if_neg hm, if_neg (fun hcon => hm ((hiff a).mp hcon))]
      rw [ih (acc ++ [a]) (a :: seen) ?_]
      · simp
      · intro x
        rw [List.mem_cons, List.mem_append, List.mem_singleton, hiff x, Or.comm]

/-- C10: `extract_shall_sentences` returns only stripped sentence-level
    matches strictly longer than 15 characters, de-duplicated keeping the
    first occurrence in order; hence a section whose only shall statement is
    at most 15 characters long reports `requirement_count` 0, and a
    repeated identical shall sentence is counted once. -/
theorem claim_C10 :
    (∀ (t s : String), s ∈ P1.extract_shall_sentences t →
        15 < s.length ∧ ∃ p ∈ P1.shallFindall t.data, s = (stripChars p).asString)
    ∧ (∀ t : String, (P1.extract_shall_sentences t).Nodup)
    ∧ (∀ t : String, P1.extract_shall_sentences t
        = P1.firstOccFold
            (((P1.shallFindall t.data).map fun p => (stripChars p).asString).filter
              fun s => 15 < s.length))
    ∧ (∀ t : String, List.Sublist (P1.extract_shall_sentences t)
        ((P1.shallFindall t.data).map fun p => (stripChars p).asString))
    ∧ P1.requirementCount "It shall work." = 0
    ∧ P1.requirementCount "The x shall run fast. The x shall run fast." = 1 := by
  refine ⟨?_, fun t => pyDedupAux_nodup _ [], ?_, ?_, by decide, by decide⟩
  · intro t s hs
    have hmem : s ∈ ((P1.shallFindall t.data).map fun p => (stripChars p).asString).filter
        (fun s => 15 < s.length) :=
      (pyDedupAux_sublist _ []).subset hs
    have hf := List.mem_filter.mp hmem
    refine ⟨by simpa using hf.2, ?_⟩
    rcases List.mem_map.mp hf.1 with ⟨p, hp, he⟩
    exact ⟨p, hp, he.symm⟩
  · intro t
    unfold P1.firstOccFold
    rw [foldl_firstOcc_eq _ [] [] (by simp)]
    simp [P1.extract_shall_sentences, P1.pyDedup]
  · intro t
    exact ((pyDedupAux_sublist _ []).trans (List.filter_sublist _))

/-- C10 witness: the theorem instantiated at the duplicated-sentence
    content, for its single extracted sentence. -/
theorem claim_C10_witness :
    15 < ("The x shall run fast." : String).length
    ∧ ∃ p ∈ P1.shallFindall ("The x shall run fast. The x shall run fast." : String).data,
        ("The x shall run fast." : String) = (stripChars p).asString :=
  claim_C10.1 "The x shall run fast. The x shall run fast." "The x shall run fast." (by decide)

/-! ## Claim C9: the pipeline never errors -/

theorem exc_bind_ok {α β : Type} (a : α) (f : α → Except String β) :
    (Except.ok a >>= f) = f a := rfl

theorem exc_pure {α : Type} (a : α) : (pure a : Except String α) = .ok a := rfl

theorem getE_ok {α : Type} (l : List α) (i : Nat) (x : α) (h : l[i]? = some x) :
    OCPv3E.getE l i = .ok x := by
  unfold OCPv3E.getE
  rw [h]

theorem ctxBeforeE_eq (lines : List String) :
    ∀ i : Nat, i ≤ lines.length →
      OCPv3E.ctxBeforeE lines i = .ok (OCPv3.ctxBefore lines i) := by
  intro i
  induction i with
  | zero =>
    intro _
    rfl
  | succ i ih =>
    intro hle
    have hi : i < lines.length := by omega
    have hl : lines[i]? = some lines[i] := List.getElem?_eq_getElem hi
    have e : OCPv3.ctxBefore lines (i + 1)
        = if isBlank lines[i] then OCPv3.ctxBefore lines i else [lines[i]] := by
      rw [ctxBefore_succ, hl]
    rw [OCPv3E.ctxBeforeE, e, getE_ok lines i lines[i] hl, exc_bind_ok]
    by_cases hb : isBlank lines[i]
    · rw [if_pos hb, if_pos hb]
      exact ih (by omega)
    · rw [if_neg hb, if_neg hb]
      rfl

theorem anchorResolveE_eq (line : String) (after : List String) :
    OCPv3E.anchorResolveE line after = .ok (OCPv3.anchorResolve line after) := by
  unfold OCPv3E.anchorResolveE OCPv3.anchorResolve
  cases hm : searchAnchor line.data with
  | some a => rfl
  | none =>
    cases after with
    | nil => rfl
    | cons a rest =>
      simp only [Option.isNone_none, List.isEmpty_cons, Bool.not_false, Bool.and_true]
      rw [getE_ok (a :: rest) 0 a (by simp), exc_bind_ok]
      rfl

theorem extractGoE_eq (all : List String) (sid hier : String) (ph : Option String)
    (pg : Nat) :
    ∀ (rest : List String) (idx cnt : Nat), idx + rest.length ≤ all.length →
      OCPv3E.extractGoE all sid hier ph pg rest idx cnt
        = .ok (OCPv3.extractGo all sid hier ph pg rest idx cnt) := by
  intro rest
  induction rest with
  | nil =>
    intro idx cnt _
    rfl
  | cons l rest ih =>
    intro idx cnt hle
    rw [OCPv3E.extractGoE, OCPv3.extractGo]
    by_cases hs : shallSearch l.data = true
    case neg =>
      rw [if_neg hs, if_neg hs]
      exact ih (idx + 1) cnt (by simp only [List.length_cons] at hle; omega)
    case pos =>
      rw [if_pos hs, if_pos hs]
      have h1 : OCPv3E.ctxBeforeE all idx = .ok (OCPv3.ctxBefore all idx) :=
        ctxBeforeE_eq all idx (by simp only [List.length_cons] at hle; omega)
      have h3 : OCPv3E.extractGoE all sid hier ph pg rest (idx + 1) (cnt + 1)
          = .ok (OCPv3.extractGo all sid hier ph pg rest (idx + 1) (cnt + 1)) :=
        ih (idx + 1) (cnt + 1) (by simp only [List.length_cons] at hle; omega)
      rw [h1, exc_bind_ok]
      simp only [anchorResolveE_eq, exc_bind_ok, h3]
      rfl

theorem mapGetE_ok (m : TitleMap) (k v : String) (h : mapGet? m k = some v) :
    OCPv3E.mapGetE m k = .ok v := by
  unfold OCPv3E.mapGetE
  rw [h]

theorem ancestorsE_eq (m : TitleMap) (keys : List String) :
    ∀ acc : List String,
      keys.foldlM
        (fun acc key =>
          if (mapGet? m key).isSome then do
            let v ← OCPv3E.mapGetE m key
            pure (acc ++ [v])
          else pure acc) acc
        = .ok (keys.foldl
            (fun acc key =>
              match mapGet? m key with
              | some v => acc ++ [v]
              | none => acc) acc) := by
  induction keys with
  | nil =>
    intro acc
    rfl
  | cons k ks ih =>
    intro acc
    rw [List.foldlM_cons, List.foldl_cons]
    cases hk : mapGet? m k with
    | some v =>
      simp only [Option.isSome_some, eq_self_iff_true, if_true,
        mapGetE_ok m k v hk, exc_bind_ok, exc_pure]
      exact ih (acc ++ [v])
    | none =>
      simp only [Option.isSome_none, Bool.false_eq_true, if_false, exc_pure, exc_bind_ok]
      exact ih acc

theorem lastE_eq (l : List String) :
    OCPv3E.lastE l = .ok (if l.isEmpty then none else l[l.length - 1]?) := by
  unfold OCPv3E.lastE
  cases l with
  | nil => rfl
  | cons a t =>
    simp only [List.isEmpty_cons, Bool.false_eq_true, if_false]
    have hlt : (a :: t).length - 1 < (a :: t).length := by simp
    have hsome : (a :: t)[(a :: t).length - 1]? = some ((a :: t)[(a :: t).length - 1]) :=
      List.getElem?_eq_getElem hlt
    rw [getE_ok _ _ _ hsome, exc_bind_ok, hsome]
    rfl

theorem penultE_eq (l : List String) :
    OCPv3E.penultE l = .ok (if 2 ≤ l.length then l[l.length - 2]? else none) := by
  unfold OCPv3E.penultE
  by_cases hlen : 2 ≤ l.length
  · have hlt : l.length - 2 < l.length := by omega
    have hsome : l[l.length - 2]? = some l[l.length - 2] :=
      List.getElem?_eq_getElem hlt
    rw [if_pos hlen, if_pos hlen, getE_ok _ _ _ hsome, exc_bind_ok, hsome]
    rfl
  · rw [if_neg hlen, if_neg hlen]
    rfl

theorem build_hierarchy_treeE_eq (m : TitleMap) (n : String) :
    OCPv3E.build_hierarchy_treeE m n = .ok (OCPv3.build_hierarchy_tree m n) := by
  unfold OCPv3E.build_hierarchy_treeE OCPv3.build_hierarchy_tree
  rw [ancestorsE_eq, exc_bind_ok, lastE_eq, exc_bind_ok, penultE_eq, exc_bind_ok]
  rfl

theorem finalizeSectionE_eq (m : TitleMap) (d : OCPv3.CurSec) :
    OCPv3E.finalizeSectionE m d = .ok (OCPv3.finalizeSection m d) := by
  unfold OCPv3E.finalizeSectionE OCPv3.finalizeSection
  simp only [build_hierarchy_treeE_eq, exc_bind_ok]
  rw [extractGoE_eq d.lines (OCPv3.sectionIdOf d.number) d.full_name
    (OCPv3.build_hierarchy_tree m d.number).parent d.page_number d.lines 0 0 (by simp),
    exc_bind_ok]
  rfl

theorem stepE_eq (st : OCPv3.ParseSt) (pg : Nat) (line : String) :
    OCPv3E.stepE st pg line = .ok (OCPv3.step st pg line) := by
  unfold OCPv3E.stepE OCPv3.step
  cases h : headerMatch line.data with
  | some g =>
    obtain ⟨num, title⟩ := g
    cases hc : st.current with
    | some cur =>
      simp only [finalizeSectionE_eq, exc_bind_ok, exc_pure]
    | none => rfl
  | none =>
    cases hc : st.current with
    | some cur => rfl
    | none => rfl

theorem foldlM_lines_eq (pg : Nat) (lines : List String) :
    ∀ st : OCPv3.ParseSt,
      lines.foldlM (fun s l => OCPv3E.stepE s pg l) st
        = .ok (lines.foldl (fun s l => OCPv3.step s pg l) st) := by
  induction lines with
  | nil =>
    intro st
    rfl
  | cons l rest ih =>
    intro st
    rw [List.foldlM_cons, List.foldl_cons, stepE_eq, exc_bind_ok]
    exact ih _

theorem foldlM_pages_eq (pages : List Page) :
    ∀ st : OCPv3.ParseSt,
      pages.foldlM
        (fun st p => p.lines.foldlM (fun s l => OCPv3E.stepE s p.page_number l) st) st
        = .ok (pages.foldl
            (fun st p => p.lines.foldl (fun s l => OCPv3.step s p.page_number l) st) st) := by
  induction pages with
  | nil =>
    intro st
    rfl
  | cons p rest ih =>
    intro st
    rw [List.foldlM_cons, List.foldl_cons, foldlM_lines_eq, exc_bind_ok]
    exact ih _

/-- C9: the `OCP_parser_v3.py` pipeline, re-embedded with every
    Python-raisable operation (list and dict subscripts) modelled as a
    checked `Except` computation, never errors: on every page stream it
    returns `Except.ok` of exactly the pure pipeline's output list. -/
theorem claim_C9 : ∀ pages : List Page,
    OCPv3E.parseE pages = .ok (OCPv3.parsePages pages) := by
  intro pages
  unfold OCPv3E.parseE OCPv3.parsePages OCPv3.runPages OCPv3.flush
  rw [foldlM_pages_eq, exc_bind_ok]
  cases hc : (pages.foldl
      (fun st p => p.lines.foldl (fun s l => OCPv3.step s p.page_number l) st)
      OCPv3.initSt).current with
  | some cur =>
    simp only [finalizeSectionE_eq, exc_bind_ok, exc_pure]
  | none => rfl
